import Mathlib

/-!
# Verification of PyQBench's batching, resolution and limits engine

This file gives a shallow embedding of the core of the `qbench` package:

* `qbench/batching.py` — `batch_circuits_with_keys`;
* `qbench/fourier/experiment_runner.py` — `_extract_result_from_job`,
  `_iter_batches`, `_resolve_batches`, the data construction of
  `run_experiment`, `resolve_results`, `fetch_statuses`, `tabulate_results`;
* `qbench/fourier/_experiment_runner.py` — `_verify_results_are_async_or_fail`;
* `qbench/limits.py` — `get_limits`;
* `qbench/schemes/direct_sum.py` and `qbench/schemes/postselection.py` —
  the probability formulas used by `tabulate_results`.

Python sequences are modelled as `List`, dictionaries as association lists
with Python-dict semantics (insertion order, last write wins), `float` angles
as `ℚ`, raised exceptions as `Except` errors, and `None` as `Option.none`.
Circuit payloads and histograms are opaque type parameters wherever the code
never inspects them.
-/

namespace QBench

/-- Model of `qbench.batching.BatchWithKey`: a named tuple pairing a list of
circuits with the list of keys attached to them.  Circuits and keys are
opaque payloads (`α`, `κ`). -/
structure BatchWithKey (α κ : Type) where
  circuits : List α
  keys : List κ
  deriving DecidableEq, Repr

/-- Helper for `batch_circuits_with_keys`: the list-comprehension
`[BatchWithKey(islice(circuits_it, k), islice(keys_it, k)) for _ in range(m)]`
from `qbench/batching.py`.  Each round consumes the next `k` elements of both
iterators, i.e. takes `k` and drops `k`; `m` is the number of rounds. -/
def isliceRounds (k : Nat) : Nat → List α → List κ → List (BatchWithKey α κ)
  | 0, _, _ => []
  | m + 1, cs, ks => ⟨cs.take k, ks.take k⟩ :: isliceRounds k m (cs.drop k) (ks.drop k)

/-- Model of `qbench.batching.batch_circuits_with_keys`.

* `max_circuits_per_batch = None` returns a single batch with all circuits
  and keys (`[BatchWithKey(list(circuits), keys)]`);
* otherwise `num_batches = math.ceil(len(circuits) / k)` (for `k ≥ 1` this is
  `(len + k - 1) / k` in natural division) and the two iterators are sliced
  `num_batches` times. -/
def batch_circuits_with_keys (circuits : List α) (keys : List κ) :
    Option Nat → List (BatchWithKey α κ)
  | none => [⟨circuits, keys⟩]
  | some k => isliceRounds k ((circuits.length + k - 1) / k) circuits keys

/-- `isliceRounds` produces exactly `m` batches. -/
theorem isliceRounds_length (k m : Nat) (cs : List α) (ks : List κ) :
    (isliceRounds k m cs ks).length = m := by
  induction m generalizing cs ks with
  | zero => rfl
  | succ m ih => simp [isliceRounds, ih]

/-- The circuit partition made by `isliceRounds` does not depend on the keys. -/
theorem isliceRounds_map_circuits (k m : Nat) (cs : List α) (ks : List κ)
    (ks' : List κ') :
    (isliceRounds k m cs ks).map BatchWithKey.circuits
      = (isliceRounds k m cs ks').map BatchWithKey.circuits := by
  induction m generalizing cs ks ks' with
  | zero => rfl
  | succ m ih => simp [isliceRounds, ih (cs.drop k) (ks.drop k) (ks'.drop k)]

/-- The `i`-th batch of `isliceRounds` holds the slices
`cs[k*i : k*i + k]` and `ks[k*i : k*i + k]`. -/
theorem isliceRounds_getElem (k m : Nat) (cs : List α) (ks : List κ)
    (i : Nat) (hi : i < m) :
    (isliceRounds k m cs ks)[i]?
      = some ⟨(cs.drop (k * i)).take k, (ks.drop (k * i)).take k⟩ := by
  induction m generalizing cs ks i with
  | zero => omega
  | succ m ih =>
    cases i with
    | zero => simp [isliceRounds]
    | succ i =>
      have hi' : i < m := by omega
      simpa [isliceRounds, List.drop_drop, Nat.mul_succ, Nat.add_comm] using
        ih (cs.drop k) (ks.drop k) i hi'

/-- Concatenating the circuit slices recovers the original circuits, provided
the number of rounds covers the whole list. -/
theorem isliceRounds_join_circuits (k m : Nat) (cs : List α) (ks : List κ)
    (h : cs.length ≤ k * m) :
    ((isliceRounds k m cs ks).map BatchWithKey.circuits).flatten = cs := by
  induction m generalizing cs ks with
  | zero =>
    have : cs = [] := by
      cases cs with
      | nil => rfl
      | cons a l => simp at h
    simp [this, isliceRounds]
  | succ m ih =>
    have h' : (cs.drop k).length ≤ k * m := by
      have := cs.length_drop k
      have hmul : k * (m + 1) = k * m + k := Nat.mul_succ k m
      omega
    simp [isliceRounds, ih (cs.drop k) (ks.drop k) h']

/-- Concatenating the key slices recovers the original keys, provided the
number of rounds covers the whole key list. -/
theorem isliceRounds_join_keys (k m : Nat) (cs : List α) (ks : List κ)
    (h : ks.length ≤ k * m) :
    ((isliceRounds k m cs ks).map BatchWithKey.keys).flatten = ks := by
  induction m generalizing cs ks with
  | zero =>
    have : ks = [] := by
      cases ks with
      | nil => rfl
      | cons a l => simp at h
    simp [this, isliceRounds]
  | succ m ih =>
    have h' : (ks.drop k).length ≤ k * m := by
      have := ks.length_drop k
      have hmul : k * (m + 1) = k * m + k := Nat.mul_succ k m
      omega
    simp [isliceRounds, ih (cs.drop k) (ks.drop k) h']

/-- Arithmetic of the ceiling division used by `batch_circuits_with_keys`:
for `k ≥ 1`, the number of batches `m = (n + k - 1) / k` satisfies
`n ≤ k * m`, and `k * (m - 1) < n` whenever `m ≥ 1`. -/
theorem ceil_div_bounds (n k : Nat) (hk : 1 ≤ k) :
    n ≤ k * ((n + k - 1) / k) ∧
      (1 ≤ (n + k - 1) / k → k * ((n + k - 1) / k - 1) < n) := by
  obtain ⟨m, hm, r, _hr, hdm, hlt⟩ :
      ∃ m, m = (n + k - 1) / k ∧ ∃ r, r = (n + k - 1) % k ∧
        k * m + r = n + k - 1 ∧ r < k :=
    ⟨_, rfl, _, rfl, Nat.div_add_mod _ _, Nat.mod_lt _ (by omega)⟩
  rw [← hm]
  cases m with
  | zero =>
    rw [Nat.mul_zero] at hdm
    constructor
    · rw [Nat.mul_zero]; omega
    · intro h; exact absurd h (by decide)
  | succ m' =>
    rw [Nat.mul_succ] at hdm
    obtain ⟨K, hK⟩ : ∃ K, K = k * m' := ⟨_, rfl⟩
    rw [← hK] at hdm
    constructor
    · rw [Nat.mul_succ, ← hK]; omega
    · intro _
      simp only [Nat.succ_sub_one]
      rw [← hK]; omega

/-- Size specification of `batch_circuits_with_keys` (claim about batch
counts and sizes): with a positive bound `k` the function returns
`ceil(n/k)` batches, every batch except possibly the last has exactly `k`
circuits, the sizes sum to `n`, `n = 0` yields zero batches; with bound
`None` it returns one batch holding everything in order. -/
def BatchSizesSpec (circuits : List α) (keys : List κ) (k : Nat) : Prop :=
  (batch_circuits_with_keys circuits keys (some k)).length
      = (circuits.length + k - 1) / k
  ∧ (∀ i, i + 1 < (batch_circuits_with_keys circuits keys (some k)).length →
      ((batch_circuits_with_keys circuits keys (some k))[i]?).map
        (fun b => b.circuits.length) = some k)
  ∧ ((batch_circuits_with_keys circuits keys (some k)).map
      (fun b => b.circuits.length)).sum = circuits.length
  ∧ (circuits = [] → batch_circuits_with_keys circuits keys (some k) = [])
  ∧ batch_circuits_with_keys circuits keys none = [⟨circuits, keys⟩]

theorem batch_none_eq (circuits : List α) (keys : List κ) :
    batch_circuits_with_keys circuits keys none = [⟨circuits, keys⟩] := rfl

theorem batch_some_eq (circuits : List α) (keys : List κ) (k : Nat) :
    batch_circuits_with_keys circuits keys (some k)
      = isliceRounds k ((circuits.length + k - 1) / k) circuits keys := rfl

/-- C1: for `n ≥ 0` circuits with equally many keys and a positive bound `k`,
`batch_circuits_with_keys` returns exactly `ceil(n/k)` batches, every batch
except possibly the last has exactly `k` circuits, the sizes sum to `n`
(so `n = 0` yields zero batches without raising), and bound `None` returns a
single batch with all items in original order. -/
theorem batch_circuits_with_keys_sizes (circuits : List α) (keys : List κ)
    (k : Nat) (hk : 1 ≤ k) (_hlen : keys.length = circuits.length) :
    BatchSizesSpec circuits keys k := by
  obtain ⟨hcover, hlast⟩ := ceil_div_bounds circuits.length k hk
  refine ⟨?_, ?_, ?_, ?_, rfl⟩
  · rw [batch_some_eq, isliceRounds_length]
  · intro i hi
    rw [batch_some_eq, isliceRounds_length] at hi
    rw [batch_some_eq]
    rw [isliceRounds_getElem k _ circuits keys i (by omega)]
    rw [Option.map_some']
    rw [List.length_take, List.length_drop]
    have hm1 : 1 ≤ (circuits.length + k - 1) / k := by omega
    have hstep : k * (i + 1) ≤ k * ((circuits.length + k - 1) / k - 1) :=
      Nat.mul_le_mul_left k (by omega)
    have := hlast hm1
    have hki : k * i + k = k * (i + 1) := (Nat.mul_succ k i).symm
    have : min k (circuits.length - k * i) = k := by omega
    rw [this]
  · rw [batch_some_eq]
    have hjoin := isliceRounds_join_circuits k ((circuits.length + k - 1) / k)
      circuits keys hcover
    calc ((isliceRounds k ((circuits.length + k - 1) / k) circuits keys).map
            (fun b => b.circuits.length)).sum
        = (((isliceRounds k ((circuits.length + k - 1) / k) circuits keys).map
            BatchWithKey.circuits).map List.length).sum := by
          rw [List.map_map]; rfl
      _ = ((isliceRounds k ((circuits.length + k - 1) / k) circuits keys).map
            BatchWithKey.circuits).flatten.length := (List.length_flatten _).symm
      _ = circuits.length := by rw [hjoin]
  · intro hnil
    subst hnil
    rw [batch_some_eq]
    have h0 : (([] : List α).length + k - 1) / k = 0 :=
      Nat.div_eq_of_lt (by simp; omega)
    rw [h0]
    rfl

/-- Witness: `batch_circuits_with_keys` on 5 circuits with 5 keys and batch
size 2 satisfies the size specification (batches of sizes 2, 2, 1). -/
theorem batch_circuits_with_keys_sizes_witness :
    ((1 : Nat) ≤ 2 ∧ ([10, 11, 12, 13, 14] : List Nat).length
        = ([0, 1, 2, 3, 4] : List Nat).length)
    ∧ BatchSizesSpec ([0, 1, 2, 3, 4] : List Nat) ([10, 11, 12, 13, 14] : List Nat) 2 :=
  ⟨⟨by decide, by decide⟩,
    batch_circuits_with_keys_sizes _ _ _ (by decide) (by decide)⟩

/-- Correspondence specification of `batch_circuits_with_keys` (claim about
key/circuit pairing): for both a positive bound and `None`, concatenating the
batches' circuits (resp. keys) reproduces the inputs, and the `i`-th circuit
and the `i`-th key land in the same batch (`i / k`) at the same relative
position (`i % k`). -/
def BatchCorrespondenceSpec (circuits : List α) (keys : List κ) : Prop :=
  (∀ k, 1 ≤ k →
    ((batch_circuits_with_keys circuits keys (some k)).map
        BatchWithKey.circuits).flatten = circuits
    ∧ ((batch_circuits_with_keys circuits keys (some k)).map
        BatchWithKey.keys).flatten = keys
    ∧ ∀ i, i < circuits.length →
        ((batch_circuits_with_keys circuits keys (some k))[i / k]?).bind
            (fun b => b.circuits[i % k]?) = circuits[i]?
        ∧ ((batch_circuits_with_keys circuits keys (some k))[i / k]?).bind
            (fun b => b.keys[i % k]?) = keys[i]?)
  ∧ ((batch_circuits_with_keys circuits keys none).map
      BatchWithKey.circuits).flatten = circuits
  ∧ ((batch_circuits_with_keys circuits keys none).map
      BatchWithKey.keys).flatten = keys
  ∧ ∀ i, i < circuits.length →
      ((batch_circuits_with_keys circuits keys none)[0]?).bind
          (fun b => b.circuits[i]?) = circuits[i]?
      ∧ ((batch_circuits_with_keys circuits keys none)[0]?).bind
          (fun b => b.keys[i]?) = keys[i]?

/-- C2: for equal-length circuits and keys and every batch size (positive or
`None`), circuit `i` and key `i` end up in the same batch at the same
relative position, and concatenating the batches reconstructs both input
sequences exactly. -/
theorem batch_circuits_with_keys_correspondence (circuits : List α)
    (keys : List κ) (hlen : keys.length = circuits.length) :
    BatchCorrespondenceSpec circuits keys := by
  refine ⟨?_, by simp [batch_circuits_with_keys],
    by simp [batch_circuits_with_keys], ?_⟩
  · intro k hk
    obtain ⟨hcover, _⟩ := ceil_div_bounds circuits.length k hk
    refine ⟨?_, ?_, ?_⟩
    · rw [batch_some_eq]
      exact isliceRounds_join_circuits _ _ _ _ hcover
    · rw [batch_some_eq]
      exact isliceRounds_join_keys _ _ _ _ (by omega)
    · intro i hi
      have hkpos : 0 < k := hk
      have hdivlt : i / k < (circuits.length + k - 1) / k := by
        rw [Nat.div_lt_iff_lt_mul hkpos]
        have : k * ((circuits.length + k - 1) / k)
            = ((circuits.length + k - 1) / k) * k := Nat.mul_comm _ _
        omega
      have hb := isliceRounds_getElem k ((circuits.length + k - 1) / k)
        circuits keys (i / k) hdivlt
      have hmodlt : i % k < k := Nat.mod_lt _ hkpos
      have hidx : k * (i / k) + i % k = i := Nat.div_add_mod i k
      constructor
      · rw [batch_some_eq, hb, Option.some_bind,
          List.getElem?_take_of_lt hmodlt, List.getElem?_drop, hidx]
      · rw [batch_some_eq, hb, Option.some_bind,
          List.getElem?_take_of_lt hmodlt, List.getElem?_drop, hidx]
  · intro i _
    constructor
    · simp [batch_circuits_with_keys]
    · simp [batch_circuits_with_keys]

/-- Witness: correspondence for 5 circuits and 5 keys. -/
theorem batch_circuits_with_keys_correspondence_witness :
    (([10, 11, 12, 13, 14] : List Nat).length
        = ([0, 1, 2, 3, 4] : List Nat).length)
    ∧ BatchCorrespondenceSpec ([0, 1, 2, 3, 4] : List Nat)
        ([10, 11, 12, 13, 14] : List Nat) :=
  ⟨by decide, batch_circuits_with_keys_correspondence _ _ (by decide)⟩

/-- Missing-validation specification of `batch_circuits_with_keys` (claim
about shorter key sequences): with fewer keys than circuits and a positive
bound, no error is signalled (the function is total and returns the full
circuit partition, which depends on the circuit count alone), all keys are
spread over the batches, and some batch holds strictly fewer keys than
circuits. -/
def BatchKeysShorterSpec (circuits : List α) (keys : List κ) (k : Nat) : Prop :=
  (∀ (keys' : List κ),
      (batch_circuits_with_keys circuits keys (some k)).map BatchWithKey.circuits
        = (batch_circuits_with_keys circuits keys' (some k)).map BatchWithKey.circuits)
  ∧ (batch_circuits_with_keys circuits keys (some k)).length
      = (circuits.length + k - 1) / k
  ∧ ((batch_circuits_with_keys circuits keys (some k)).map
      BatchWithKey.keys).flatten = keys
  ∧ ∃ b ∈ batch_circuits_with_keys circuits keys (some k),
      b.keys.length < b.circuits.length

/-- C10: `batch_circuits_with_keys` performs no length validation: with a keys
sequence shorter than the circuits and a positive bound it does not raise,
partitions by circuit count alone, and some batch silently receives fewer
keys than circuits, breaking the correspondence without any error. -/
theorem batch_circuits_with_keys_no_length_validation (circuits : List α)
    (keys : List κ) (k : Nat) (hk : 1 ≤ k)
    (hshort : keys.length < circuits.length) :
    BatchKeysShorterSpec circuits keys k := by
  obtain ⟨hcover, _⟩ := ceil_div_bounds circuits.length k hk
  have hjoinc := isliceRounds_join_circuits k ((circuits.length + k - 1) / k)
    circuits keys hcover
  have hjoink := isliceRounds_join_keys k ((circuits.length + k - 1) / k)
    circuits keys (by omega)
  refine ⟨?_, ?_, ?_, ?_⟩
  · intro keys'
    rw [batch_some_eq, batch_some_eq]
    exact isliceRounds_map_circuits _ _ _ _ _
  · rw [batch_some_eq, isliceRounds_length]
  · rw [batch_some_eq]; exact hjoink
  · by_contra hno
    push_neg at hno
    have hsum : ((batch_circuits_with_keys circuits keys (some k)).map
        (fun b => b.circuits.length)).sum
          ≤ ((batch_circuits_with_keys circuits keys (some k)).map
        (fun b => b.keys.length)).sum :=
      List.sum_le_sum (fun b hb => hno b hb)
    have hcsum : ((batch_circuits_with_keys circuits keys (some k)).map
        (fun b => b.circuits.length)).sum = circuits.length := by
      rw [batch_some_eq]
      calc ((isliceRounds k ((circuits.length + k - 1) / k) circuits keys).map
              (fun b => b.circuits.length)).sum
          = (((isliceRounds k ((circuits.length + k - 1) / k) circuits keys).map
              BatchWithKey.circuits).map List.length).sum := by
            rw [List.map_map]; rfl
        _ = circuits.length := by rw [← List.length_flatten, hjoinc]
    have hksum : ((batch_circuits_with_keys circuits keys (some k)).map
        (fun b => b.keys.length)).sum = keys.length := by
      rw [batch_some_eq]
      calc ((isliceRounds k ((circuits.length + k - 1) / k) circuits keys).map
              (fun b => b.keys.length)).sum
          = (((isliceRounds k ((circuits.length + k - 1) / k) circuits keys).map
              BatchWithKey.keys).map List.length).sum := by
            rw [List.map_map]; rfl
        _ = keys.length := by rw [← List.length_flatten, hjoink]
    omega

/-- Witness: 5 circuits, 2 keys, batch size 2 — the third batch gets zero
keys while still holding one circuit. -/
theorem batch_circuits_with_keys_no_length_validation_witness :
    ((1 : Nat) ≤ 2 ∧ ([10, 11] : List Nat).length < ([0, 1, 2, 3, 4] : List Nat).length)
    ∧ BatchKeysShorterSpec ([0, 1, 2, 3, 4] : List Nat) ([10, 11] : List Nat) 2 :=
  ⟨⟨by decide, by decide⟩,
    batch_circuits_with_keys_no_length_validation _ _ _ (by decide) (by decide)⟩

/-! ## Resolution engine (`qbench/fourier/experiment_runner.py`)

Histograms are opaque (`Hist`); jobs carry, for each submitted circuit, either
a histogram (`some h`, modelling a successful `job.result().get_counts()[i]`)
or `none` (modelling the `QiskitError` raised by Qiskit when reading the
result fails, e.g. a failed sub-job).  The best-effort mitigation-info block
of `_extract_result_from_job` (guarded by `except AttributeError: pass`)
attaches an optional extra field on success and never affects failure
counting or grouping; it is not modelled since no statement here concerns it.
-/

/-- Model of `CircuitKey = Tuple[int, int, str, float]` from
`experiment_runner.py`: `(target, ancilla, circuit_name, phi)`.  Python
floats are modelled as exact rationals. -/
structure CircuitKey where
  target : Nat
  ancilla : Nat
  name : String
  phi : ℚ
  deriving DecidableEq, Repr

/-- Model of a Qiskit `JobV1` as the resolution engine sees it: an id, a
status name and one optional histogram per submitted circuit (in submission
order). -/
structure Job (Hist : Type) where
  jobId : String
  status : String
  outcomes : List (Option Hist)
  deriving DecidableEq, Repr

/-- Model of `qbench.batching.BatchJob`: a job handle plus the ordered keys
of the circuits submitted in it. -/
structure BatchJob (Hist : Type) where
  job : Job Hist
  keys : List CircuitKey
  deriving DecidableEq, Repr

/-- Model of `qbench.fourier._models.ResultForCircuit` (without the optional
mitigation fields, see the section comment). -/
structure ResultForCircuit (Hist : Type) where
  name : String
  histogram : Hist
  deriving DecidableEq, Repr

/-- Model of `qbench.fourier._models.SingleResult`. -/
structure SingleResult (Hist : Type) where
  target : Nat
  ancilla : Nat
  phi : ℚ
  results_per_circuit : List (ResultForCircuit Hist)
  deriving DecidableEq, Repr

/-- Model of `qbench.fourier._models.BatchResult`: the serialized form of a
batch job, `{job_id, keys}`. -/
structure BatchResult where
  job_id : String
  keys : List CircuitKey
  deriving DecidableEq, Repr

/-- Model of `_extract_result_from_job(job, target, ancilla, i, name)`:
`{"name": name, "histogram": job.result().get_counts()[i]}`, returning
`None` when reading the i-th histogram raises `QiskitError`.  The `target`
and `ancilla` arguments only feed the unmodelled mitigation block. -/
def _extract_result_from_job (job : Job Hist) (_target _ancilla i : Nat)
    (name : String) : Option (ResultForCircuit Hist) :=
  match job.outcomes[i]? with
  | some (some h) => some ⟨name, h⟩
  | _ => none

/-- Model of `_iter_batches`: the flat stream of `(i, key, job)` triples,
where `i` is the index of `key` inside its batch (`enumerate(batch.keys)`). -/
def _iter_batches (batches : List (BatchJob Hist)) :
    List (Nat × CircuitKey × Job Hist) :=
  (batches.map (fun b => b.keys.enum.map (fun p => (p.1, p.2, b.job)))).flatten

/-- The grouping key of `_resolve_batches`' `defaultdict`:
`(target, ancilla, phi)`. -/
abbrev GroupKey := Nat × Nat × ℚ

/-- One `resolved[target, ancilla, phi].append(result)` step on the model of
a Python `defaultdict(list)`: an association list in insertion order, where
appending to an existing key extends its bucket in place and a new key is
added at the end. -/
def addToGroups (groups : List (GroupKey × List (ResultForCircuit Hist)))
    (key : GroupKey) (r : ResultForCircuit Hist) :
    List (GroupKey × List (ResultForCircuit Hist)) :=
  match groups with
  | [] => [(key, [r])]
  | (k, rs) :: rest =>
    if k = key then (k, rs ++ [r]) :: rest
    else (k, rs) :: addToGroups rest key r

/-- One iteration of the loop in `_resolve_batches`: on a failed extraction
increment `num_failed`, otherwise append the result to its key's bucket. -/
def resolveStep (acc : List (GroupKey × List (ResultForCircuit Hist)) × Nat)
    (item : Nat × CircuitKey × Job Hist) :
    List (GroupKey × List (ResultForCircuit Hist)) × Nat :=
  match _extract_result_from_job item.2.2 item.2.1.target item.2.1.ancilla
      item.1 item.2.1.name with
  | none => (acc.1, acc.2 + 1)
  | some r =>
    (addToGroups acc.1 (item.2.1.target, item.2.1.ancilla, item.2.1.phi) r,
      acc.2)

/-- Output of `_resolve_batches`: the `SingleResult` list together with the
failure counter and the number of `logger.warning` calls made after the loop
(`if num_failed: logger.warning(...)` — one call in total). -/
structure ResolveOutput (Hist : Type) where
  data : List (SingleResult Hist)
  num_failed : Nat
  num_warnings : Nat
  deriving DecidableEq, Repr

/-- Model of `_resolve_batches`. -/
def _resolve_batches (batches : List (BatchJob Hist)) : ResolveOutput Hist :=
  let acc := (_iter_batches batches).foldl resolveStep ([], 0)
  { data := acc.1.map (fun p => ⟨p.1.1, p.1.2.1, p.1.2.2, p.2⟩)
    num_failed := acc.2
    num_warnings := if acc.2 = 0 then 0 else 1 }

/-- Model of the Python dict `{job.job_id(): job for job in retrieve_jobs(...)}`
looked up at `jid`: the last job of the list with that id (later entries of a
dict comprehension overwrite earlier ones), `none` when no job has the id. -/
def jobsMapping (jobs : List (Job Hist)) (jid : String) : Option (Job Hist) :=
  (jobs.filter (fun j => j.jobId == jid)).getLast?

/-- Model of the list comprehension
`[BatchJob(jobs_mapping[entry.job_id], entry.keys) for entry in data]` from
`resolve_results`; a missing id raises `KeyError`. -/
def rebuildBatches (jobs : List (Job Hist)) :
    List BatchResult → Except String (List (BatchJob Hist))
  | [] => .ok []
  | e :: rest =>
    match jobsMapping jobs e.job_id with
    | some j =>
      match rebuildBatches jobs rest with
      | .ok bs => .ok (⟨j, e.keys⟩ :: bs)
      | .error msg => .error msg
    | none => .error ("KeyError: " ++ e.job_id)

/-- Model of `resolve_results`: rebuild the batches by looking each stored
`job_id` up among the retrieved jobs (whose order is not guaranteed), then
run `_resolve_batches`.  The `data` field of the returned
`FourierDiscriminationSyncResult` is the resolved list. -/
def resolve_results (data : List BatchResult) (jobs : List (Job Hist)) :
    Except String (List (SingleResult Hist)) :=
  match rebuildBatches jobs data with
  | .ok batches => .ok (_resolve_batches batches).data
  | .error msg => .error msg

/-- Model of the `data` field built by the synchronous branch of
`run_experiment`: `_resolve_batches(batches)`. -/
def run_experiment_sync_data (batches : List (BatchJob Hist)) :
    List (SingleResult Hist) :=
  (_resolve_batches batches).data

/-- Model of the `data` field built by the asynchronous branch of
`run_experiment`:
`[BatchResult(job_id=batch.job.job_id(), keys=batch.keys) for batch in batches]`. -/
def run_experiment_async_data (batches : List (BatchJob Hist)) :
    List BatchResult :=
  batches.map (fun b => ⟨b.job.jobId, b.keys⟩)

/-- Total number of work items across batches (one per key). -/
def totalKeys (batches : List (BatchJob Hist)) : Nat :=
  (batches.map (fun b => b.keys.length)).sum

/-- Total number of `ResultForCircuit` entries in a resolution output. -/
def totalResolved (out : ResolveOutput Hist) : Nat :=
  (out.data.map (fun s => s.results_per_circuit.length)).sum

theorem resolveStep_eq (acc : List (GroupKey × List (ResultForCircuit Hist)) × Nat)
    (item : Nat × CircuitKey × Job Hist) :
    resolveStep acc item
      = match _extract_result_from_job item.2.2 item.2.1.target item.2.1.ancilla
          item.1 item.2.1.name with
        | none => (acc.1, acc.2 + 1)
        | some r =>
          (addToGroups acc.1 (item.2.1.target, item.2.1.ancilla, item.2.1.phi) r,
            acc.2) := rfl

/-- Number of results stored across all buckets of the grouping dict. -/
def sizeGroups (g : List (GroupKey × List (ResultForCircuit Hist))) : Nat :=
  (g.map (fun p => p.2.length)).sum

theorem sizeGroups_addToGroups (g : List (GroupKey × List (ResultForCircuit Hist)))
    (key : GroupKey) (r : ResultForCircuit Hist) :
    sizeGroups (addToGroups g key r) = sizeGroups g + 1 := by
  induction g with
  | nil => simp [addToGroups, sizeGroups]
  | cons p rest ih =>
    obtain ⟨k, rs⟩ := p
    by_cases h : k = key
    · simp [addToGroups, h, sizeGroups]
      omega
    · simp only [addToGroups, if_neg h, sizeGroups, List.map_cons, List.sum_cons]
      simp only [sizeGroups] at ih
      omega

/-- Each processed item either lands in a bucket or bumps the failure
counter: the loop of `_resolve_batches` conserves
`#stored + #failed = #processed`. -/
theorem resolveFold_count (items : List (Nat × CircuitKey × Job Hist)) :
    ∀ (g : List (GroupKey × List (ResultForCircuit Hist))) (n : Nat),
      sizeGroups (items.foldl resolveStep (g, n)).1
          + (items.foldl resolveStep (g, n)).2
        = sizeGroups g + n + items.length := by
  induction items with
  | nil => intro g n; simp
  | cons it rest ih =>
    intro g n
    rw [List.foldl_cons]
    rcases hext : _extract_result_from_job it.2.2 it.2.1.target it.2.1.ancilla
        it.1 it.2.1.name with _ | r
    · have hstep : resolveStep (g, n) it = (g, n + 1) := by
        rw [resolveStep_eq, hext]
      rw [hstep, ih]
      simp; omega
    · have hstep : resolveStep (g, n) it
          = (addToGroups g (it.2.1.target, it.2.1.ancilla, it.2.1.phi) r, n) := by
        rw [resolveStep_eq, hext]
      rw [hstep, ih, sizeGroups_addToGroups]
      simp; omega

theorem iter_batches_length (batches : List (BatchJob Hist)) :
    (_iter_batches batches).length = totalKeys batches := by
  induction batches with
  | nil => rfl
  | cons b rest ih =>
    simp only [_iter_batches, totalKeys, List.map_cons, List.flatten_cons,
      List.length_append, List.sum_cons, List.length_map, List.enum_length]
    simp only [_iter_batches, totalKeys] at ih
    omega

theorem totalResolved_resolve (batches : List (BatchJob Hist)) :
    totalResolved (_resolve_batches batches)
      = sizeGroups ((_iter_batches batches).foldl resolveStep ([], 0)).1 := by
  simp only [totalResolved, _resolve_batches, sizeGroups, List.map_map]
  rfl

/-- A concrete one-batch scenario with two items sharing the identity
`(0, 1, 0)`, where reading item index 1's histogram fails. -/
def partialFailureBatch : List (BatchJob Nat) :=
  [⟨⟨"job-0", "DONE", [some 7, none]⟩, [⟨0, 1, "id", 0⟩, ⟨0, 1, "u", 0⟩]⟩]

/-- C3: `_resolve_batches` never propagates extraction failures: every item
is either resolved into its key's bucket or counted as failed (so the
resolved sizes plus the failure count equal the number of items), at most
one warning is emitted and exactly when the failure count is nonzero; in the
concrete two-item batch where item index 1 fails, resolution returns exactly
one result (item 0's key) without raising. -/
theorem resolve_batches_isolates_failures :
    (∀ (Hist : Type) (batches : List (BatchJob Hist)),
      (_resolve_batches batches).num_warnings
          = (if (_resolve_batches batches).num_failed = 0 then 0 else 1)
      ∧ totalResolved (_resolve_batches batches)
          + (_resolve_batches batches).num_failed = totalKeys batches)
    ∧ _resolve_batches partialFailureBatch
      = ⟨[⟨0, 1, 0, [⟨"id", 7⟩]⟩], 1, 1⟩ := by
  constructor
  · intro Hist batches
    constructor
    · rfl
    · have hcount := resolveFold_count (_iter_batches batches) [] 0
      have hfail : (_resolve_batches batches).num_failed
          = ((_iter_batches batches).foldl resolveStep ([], 0)).2 := rfl
      rw [totalResolved_resolve, hfail, ← iter_batches_length]
      simpa [sizeGroups] using hcount
  · decide

/-- C9: every entry of `_resolve_batches`' output has a non-empty
`results_per_circuit`: a key whose every item failed is simply absent. -/
theorem resolve_batches_no_empty_entry (Hist : Type)
    (batches : List (BatchJob Hist)) (sr : SingleResult Hist)
    (hmem : sr ∈ (_resolve_batches batches).data) :
    sr.results_per_circuit ≠ [] := by
  have haddNE : ∀ (g : List (GroupKey × List (ResultForCircuit Hist))) key r,
      (∀ p ∈ g, p.2 ≠ []) → ∀ p ∈ addToGroups g key r, p.2 ≠ [] := by
    intro g key r
    induction g with
    | nil =>
      intro _ p hp
      simp [addToGroups] at hp
      subst hp
      simp
    | cons q rest ih =>
      obtain ⟨k, rs⟩ := q
      intro hall p hp
      by_cases h : k = key
      · simp only [addToGroups, if_pos h] at hp
        rcases List.mem_cons.mp hp with rfl | hrest
        · simp
        · exact hall p (List.mem_cons_of_mem _ hrest)
      · simp only [addToGroups, if_neg h] at hp
        rcases List.mem_cons.mp hp with rfl | hrest
        · exact hall (k, rs) (List.mem_cons_self _ _)
        · exact ih (fun q hq => hall q (List.mem_cons_of_mem _ hq)) p hrest
  have hfold : ∀ (items : List (Nat × CircuitKey × Job Hist))
      (acc : List (GroupKey × List (ResultForCircuit Hist)) × Nat),
      (∀ p ∈ acc.1, p.2 ≠ []) →
        ∀ p ∈ (items.foldl resolveStep acc).1, p.2 ≠ [] := by
    intro items
    induction items with
    | nil => intro acc h; exact h
    | cons it rest ih =>
      intro acc h
      rw [List.foldl_cons]
      apply ih
      rcases hext : _extract_result_from_job it.2.2 it.2.1.target it.2.1.ancilla
          it.1 it.2.1.name with _ | r
      · have : resolveStep acc it = (acc.1, acc.2 + 1) := by
          rw [resolveStep_eq, hext]
        rw [this]; exact h
      · have : resolveStep acc it
            = (addToGroups acc.1 (it.2.1.target, it.2.1.ancilla, it.2.1.phi) r,
                acc.2) := by
          rw [resolveStep_eq, hext]
        rw [this]
        exact haddNE _ _ _ h
  have hdata : (_resolve_batches batches).data
      = ((_iter_batches batches).foldl resolveStep ([], 0)).1.map
          (fun p => ⟨p.1.1, p.1.2.1, p.1.2.2, p.2⟩) := rfl
  rw [hdata] at hmem
  obtain ⟨p, hp, rfl⟩ := List.mem_map.mp hmem
  exact hfold _ ([], 0) (by intro q hq; cases hq) p hp

/-- Witness: the single resolved entry of the two-item partial-failure batch
is non-empty. -/
theorem resolve_batches_no_empty_entry_witness :
    ((⟨0, 1, 0, [⟨"id", 7⟩]⟩ : SingleResult Nat)
        ∈ (_resolve_batches partialFailureBatch).data)
    ∧ (⟨0, 1, 0, [⟨"id", 7⟩]⟩ : SingleResult Nat).results_per_circuit ≠ [] :=
  ⟨by decide,
    resolve_batches_no_empty_entry Nat partialFailureBatch
      ⟨0, 1, 0, [⟨"id", 7⟩]⟩ (by decide)⟩

/-- A result `r` is stored under `key` somewhere in the grouping dict. -/
def MemGroup (g : List (GroupKey × List (ResultForCircuit Hist)))
    (key : GroupKey) (r : ResultForCircuit Hist) : Prop :=
  ∃ rs, (key, rs) ∈ g ∧ r ∈ rs

theorem memGroup_addToGroups_self
    (g : List (GroupKey × List (ResultForCircuit Hist))) (key : GroupKey)
    (r : ResultForCircuit Hist) : MemGroup (addToGroups g key r) key r := by
  induction g with
  | nil => exact ⟨[r], by simp [addToGroups]⟩
  | cons p rest ih =>
    obtain ⟨k, rs⟩ := p
    by_cases h : k = key
    · subst h
      exact ⟨rs ++ [r], by simp [addToGroups]⟩
    · obtain ⟨rs', h1, h2⟩ := ih
      refine ⟨rs', ?_, h2⟩
      simp only [addToGroups, if_neg h]
      exact List.mem_cons_of_mem _ h1

theorem memGroup_addToGroups_mono
    {g : List (GroupKey × List (ResultForCircuit Hist))} {key : GroupKey}
    {r : ResultForCircuit Hist} (key' : GroupKey) (r' : ResultForCircuit Hist)
    (h : MemGroup g key r) : MemGroup (addToGroups g key' r') key r := by
  induction g with
  | nil =>
    obtain ⟨rs, h1, _⟩ := h
    cases h1
  | cons p rest ih =>
    obtain ⟨k, rs⟩ := p
    obtain ⟨rs', h1, h2⟩ := h
    by_cases hk : k = key'
    · subst hk
      simp only [addToGroups, if_pos rfl]
      rcases List.mem_cons.mp h1 with heq | hrest
      · obtain ⟨h5, h6⟩ := Prod.ext_iff.mp heq
        subst h5
        subst h6
        exact ⟨rs' ++ [r'], List.mem_cons_self _ _, List.mem_append_left _ h2⟩
      · exact ⟨rs', List.mem_cons_of_mem _ hrest, h2⟩
    · simp only [addToGroups, if_neg hk]
      rcases List.mem_cons.mp h1 with heq | hrest
      · exact ⟨rs', by rw [heq]; exact List.mem_cons_self _ _, h2⟩
      · obtain ⟨rs'', h3, h4⟩ := ih ⟨rs', hrest, h2⟩
        exact ⟨rs'', List.mem_cons_of_mem _ h3, h4⟩

theorem memGroup_foldl (items : List (Nat × CircuitKey × Job Hist)) :
    ∀ (acc : List (GroupKey × List (ResultForCircuit Hist)) × Nat)
      (key : GroupKey) (r : ResultForCircuit Hist),
      MemGroup acc.1 key r → MemGroup ((items.foldl resolveStep acc).1) key r := by
  induction items with
  | nil => intro acc key r h; exact h
  | cons it rest ih =>
    intro acc key r h
    rw [List.foldl_cons]
    apply ih
    rcases hext : _extract_result_from_job it.2.2 it.2.1.target it.2.1.ancilla
        it.1 it.2.1.name with _ | r'
    · have : resolveStep acc it = (acc.1, acc.2 + 1) := by
        rw [resolveStep_eq, hext]
      rw [this]; exact h
    · have : resolveStep acc it
          = (addToGroups acc.1 (it.2.1.target, it.2.1.ancilla, it.2.1.phi) r',
              acc.2) := by
        rw [resolveStep_eq, hext]
      rw [this]
      exact memGroup_addToGroups_mono _ _ h

/-- An item of the stream whose extraction succeeds ends up stored under its
`(target, ancilla, phi)` key. -/
theorem memGroup_foldl_of_item (items : List (Nat × CircuitKey × Job Hist))
    (item : Nat × CircuitKey × Job Hist) (hit : item ∈ items)
    (r : ResultForCircuit Hist)
    (hext : _extract_result_from_job item.2.2 item.2.1.target
      item.2.1.ancilla item.1 item.2.1.name = some r) :
    ∀ (acc : List (GroupKey × List (ResultForCircuit Hist)) × Nat),
      MemGroup ((items.foldl resolveStep acc).1)
        (item.2.1.target, item.2.1.ancilla, item.2.1.phi) r := by
  induction items with
  | nil => cases hit
  | cons hd tl ih =>
    intro acc
    rw [List.foldl_cons]
    rcases List.mem_cons.mp hit with heq | htl
    · subst heq
      apply memGroup_foldl
      have : (resolveStep acc item).1
          = addToGroups acc.1 (item.2.1.target, item.2.1.ancilla, item.2.1.phi) r := by
        rw [resolveStep_eq, hext]
      rw [this]
      exact memGroup_addToGroups_self _ _ _
    · exact ih htl _

/-- A key at index `i` of a batch appears in the flat item stream paired
with the batch's job. -/
theorem mem_iter_batches (batches : List (BatchJob Hist)) (b : BatchJob Hist)
    (hb : b ∈ batches) (i : Nat) (k : CircuitKey) (hk : b.keys[i]? = some k) :
    (i, k, b.job) ∈ _iter_batches batches := by
  simp only [_iter_batches, List.mem_flatten, List.mem_map]
  refine ⟨b.keys.enum.map (fun p => (p.1, p.2, b.job)), ⟨b, hb, rfl⟩, ?_⟩
  simp only [List.mem_map]
  exact ⟨(i, k), List.mk_mem_enum_iff_getElem?.mpr hk, rfl⟩

/-- Output-level membership: a successfully extracted item yields an entry
of `_resolve_batches`' data with its identity and its result. -/
theorem mem_resolve_batches_data (batches : List (BatchJob Hist))
    (item : Nat × CircuitKey × Job Hist) (r : ResultForCircuit Hist)
    (hit : item ∈ _iter_batches batches)
    (hext : _extract_result_from_job item.2.2 item.2.1.target
      item.2.1.ancilla item.1 item.2.1.name = some r) :
    ∃ sr ∈ (_resolve_batches batches).data,
      sr.target = item.2.1.target ∧ sr.ancilla = item.2.1.ancilla
        ∧ sr.phi = item.2.1.phi ∧ r ∈ sr.results_per_circuit := by
  obtain ⟨rs, hmem, hr⟩ :=
    memGroup_foldl_of_item (_iter_batches batches) item hit r hext ([], 0)
  refine ⟨⟨item.2.1.target, item.2.1.ancilla, item.2.1.phi, rs⟩, ?_, rfl, rfl, rfl, hr⟩
  have hdata : (_resolve_batches batches).data
      = ((_iter_batches batches).foldl resolveStep ([], 0)).1.map
          (fun p => ⟨p.1.1, p.1.2.1, p.1.2.2, p.2⟩) := rfl
  rw [hdata]
  exact List.mem_map_of_mem _ hmem

/-- Under distinct job ids, at most one job of the list matches a given id. -/
theorem filter_jobId_length_le (jobs : List (Job Hist)) (jid : String)
    (hnodup : (jobs.map Job.jobId).Nodup) :
    (jobs.filter (fun j => j.jobId == jid)).length ≤ 1 := by
  induction jobs with
  | nil => simp
  | cons hd tl ih =>
    simp only [List.map_cons, List.nodup_cons] at hnodup
    obtain ⟨hni, hnd⟩ := hnodup
    by_cases h : hd.jobId = jid
    · have hfil : tl.filter (fun j => j.jobId == jid) = [] := by
        rw [List.filter_eq_nil_iff]
        intro j hj hpj
        apply hni
        rw [List.mem_map]
        refine ⟨j, hj, ?_⟩
        rw [eq_of_beq hpj, h]
      simp [List.filter_cons, h, hfil]
    · have : (hd.jobId == jid) = false := by
        simp [h]
      simp only [List.filter_cons, this, cond_false]
      exact ih hnd

/-- Under distinct job ids, the dict built from the retrieved jobs maps a
job's own id back to that job. -/
theorem jobsMapping_self (jobs : List (Job Hist))
    (hnodup : (jobs.map Job.jobId).Nodup) (j : Job Hist) (hj : j ∈ jobs) :
    jobsMapping jobs j.jobId = some j := by
  induction jobs with
  | nil => cases hj
  | cons hd tl ih =>
    simp only [List.map_cons, List.nodup_cons] at hnodup
    obtain ⟨hni, hnd⟩ := hnodup
    rcases List.mem_cons.mp hj with rfl | htl
    · have hfil : tl.filter (fun x => x.jobId == j.jobId) = [] := by
        rw [List.filter_eq_nil_iff]
        intro x hx hpx
        apply hni
        rw [List.mem_map]
        exact ⟨x, hx, eq_of_beq hpx⟩
      simp [jobsMapping, List.filter_cons, hfil]
    · have hne : hd.jobId ≠ j.jobId := by
        intro he
        apply hni
        rw [List.mem_map]
        exact ⟨j, htl, he.symm⟩
      have : (hd.jobId == j.jobId) = false := by
        simp [hne]
      simp only [jobsMapping, List.filter_cons, this, cond_false]
      exact ih hnd htl

/-- Under distinct job ids, the dict lookup is invariant under permuting the
retrieved jobs: resolution looks jobs up by id, not by position. -/
theorem jobsMapping_perm (jobs jobs' : List (Job Hist))
    (hnodup : (jobs.map Job.jobId).Nodup) (hperm : jobs.Perm jobs')
    (jid : String) : jobsMapping jobs jid = jobsMapping jobs' jid := by
  have hpf : (jobs.filter (fun j => j.jobId == jid)).Perm
      (jobs'.filter (fun j => j.jobId == jid)) := hperm.filter _
  have hlen := filter_jobId_length_le jobs jid hnodup
  unfold jobsMapping
  rcases hfe : jobs.filter (fun j => j.jobId == jid) with _ | ⟨a, rest⟩
  · rw [hfe] at hpf
    have : jobs'.filter (fun j => j.jobId == jid) = [] :=
      List.Perm.eq_nil hpf.symm
    rw [this, hfe]
  · rw [hfe] at hpf hlen
    have hrest : rest = [] := by
      simp only [List.length_cons] at hlen
      exact List.length_eq_zero.mp (by omega)
    subst hrest
    have : jobs'.filter (fun j => j.jobId == jid) = [a] :=
      (List.perm_singleton.mp hpf.symm)
    rw [this, hfe]

/-- Batch reconstruction only depends on the id → job dict. -/
theorem rebuildBatches_congr (jobs jobs' : List (Job Hist))
    (h : ∀ jid, jobsMapping jobs jid = jobsMapping jobs' jid) :
    ∀ data, rebuildBatches jobs data = rebuildBatches jobs' data := by
  intro data
  induction data with
  | nil => rfl
  | cons e rest ih =>
    simp only [rebuildBatches, h e.job_id, ih]

/-- When every batch's own job is found by its id, reconstruction returns
exactly the original batches. -/
theorem rebuildBatches_async (jobs : List (Job Hist))
    (batches : List (BatchJob Hist))
    (h : ∀ b ∈ batches, jobsMapping jobs b.job.jobId = some b.job) :
    rebuildBatches jobs (run_experiment_async_data batches) = .ok batches := by
  induction batches with
  | nil => rfl
  | cons b rest ih =>
    have hb := h b (List.mem_cons_self _ _)
    have hrest := ih (fun x hx => h x (List.mem_cons_of_mem _ hx))
    simp only [run_experiment_async_data, List.map_cons] at *
    simp only [rebuildBatches, hb, hrest]

/-- Every entry of a successfully rebuilt batch list got its job from the
id lookup and kept its own keys. -/
theorem rebuildBatches_ok_mem (jobs : List (Job Hist)) :
    ∀ (data : List BatchResult) (bs : List (BatchJob Hist)),
      rebuildBatches jobs data = .ok bs → ∀ e ∈ data,
        ∃ j, jobsMapping jobs e.job_id = some j
          ∧ (⟨j, e.keys⟩ : BatchJob Hist) ∈ bs := by
  intro data
  induction data with
  | nil => intro bs _ e he; cases he
  | cons e' rest ih =>
    intro bs h e he
    simp only [rebuildBatches] at h
    rcases hm : jobsMapping jobs e'.job_id with _ | j'
    · rw [hm] at h; cases h
    · rw [hm] at h
      rcases hr : rebuildBatches jobs rest with msg | bs'
      · rw [hr] at h; cases h
      · rw [hr] at h
        injection h with h
        subst h
        rcases List.mem_cons.mp he with rfl | hrest
        · exact ⟨j', hm, List.mem_cons_self _ _⟩
        · obtain ⟨j'', hj1, hj2⟩ := ih bs' hr e hrest
          exact ⟨j'', hj1, List.mem_cons_of_mem _ hj2⟩

/-- Specification of `resolve_results`' lookup discipline: permuting the
order in which `retrieve_jobs` returns the jobs does not change the output;
each stored entry is paired with the job whose id equals the entry's
`job_id`; and within that job the `i`-th key is paired with the `i`-th
histogram of the job's result. -/
def ResolveLookupSpec (Hist : Type) (data : List BatchResult)
    (jobs jobs' : List (Job Hist)) : Prop :=
  resolve_results data jobs = resolve_results data jobs'
  ∧ (∀ e ∈ data, ∀ j ∈ jobs, j.jobId = e.job_id →
      jobsMapping jobs e.job_id = some j)
  ∧ ∀ e ∈ data, ∀ j ∈ jobs, j.jobId = e.job_id →
      ∀ (i : Nat) (k : CircuitKey), e.keys[i]? = some k →
        ∀ (h : Hist), j.outcomes[i]? = some (some h) →
          ∀ out, resolve_results data jobs = .ok out →
            ∃ sr ∈ out, sr.target = k.target ∧ sr.ancilla = k.ancilla
              ∧ sr.phi = k.phi
              ∧ (⟨k.name, h⟩ : ResultForCircuit Hist) ∈ sr.results_per_circuit

/-- C5: `resolve_results` is invariant under any permutation of the order in
which the jobs are retrieved, because each stored batch entry is matched to
its job by id (not by position), and within a job the `i`-th key is paired
with the `i`-th histogram. -/
theorem resolve_results_lookup_by_id (Hist : Type) (data : List BatchResult)
    (jobs jobs' : List (Job Hist))
    (hnodup : (jobs.map Job.jobId).Nodup) (hperm : jobs.Perm jobs') :
    ResolveLookupSpec Hist data jobs jobs' := by
  have hmapeq := jobsMapping_perm jobs jobs' hnodup hperm
  have hlookup : ∀ e ∈ data, ∀ j ∈ jobs, j.jobId = e.job_id →
      jobsMapping jobs e.job_id = some j := by
    intro e _ j hj hid
    rw [← hid]
    exact jobsMapping_self jobs hnodup j hj
  refine ⟨?_, hlookup, ?_⟩
  · unfold resolve_results
    rw [rebuildBatches_congr jobs jobs' hmapeq data]
  · intro e he j hj hid i k hk h hout out hres
    unfold resolve_results at hres
    rcases hr : rebuildBatches jobs data with msg | batches
    · rw [hr] at hres; cases hres
    · rw [hr] at hres
      injection hres with hres
      subst hres
      obtain ⟨j', hj1, hj2⟩ := rebuildBatches_ok_mem jobs data batches hr e he
      have hjj : j' = j := by
        have := hlookup e he j hj hid
        rw [this] at hj1
        injection hj1 with h'
        exact h'.symm
      subst hjj
      have hitem : (i, k, j') ∈ _iter_batches batches :=
        mem_iter_batches batches ⟨j', e.keys⟩ hj2 i k hk
      have hext : _extract_result_from_job j' k.target k.ancilla i k.name
          = some ⟨k.name, h⟩ := by
        unfold _extract_result_from_job
        rw [hout]
      exact mem_resolve_batches_data batches (i, k, j') ⟨k.name, h⟩ hitem hext

/-- Witness for the lookup specification: two one-item batches whose jobs are
retrieved in reversed order. -/
theorem resolve_results_lookup_by_id_witness :
    ((([⟨"a", "DONE", [some 1]⟩, ⟨"b", "DONE", [some 2]⟩] :
          List (Job Nat)).map Job.jobId).Nodup
      ∧ ([⟨"a", "DONE", [some 1]⟩, ⟨"b", "DONE", [some 2]⟩] :
          List (Job Nat)).Perm
        [⟨"b", "DONE", [some 2]⟩, ⟨"a", "DONE", [some 1]⟩])
    ∧ ResolveLookupSpec Nat
        [⟨"a", [⟨0, 1, "id", 0⟩]⟩, ⟨"b", [⟨2, 3, "u", 0⟩]⟩]
        [⟨"a", "DONE", [some 1]⟩, ⟨"b", "DONE", [some 2]⟩]
        [⟨"b", "DONE", [some 2]⟩, ⟨"a", "DONE", [some 1]⟩] :=
  ⟨⟨by decide, by decide⟩,
    resolve_results_lookup_by_id Nat
      [⟨"a", [⟨0, 1, "id", 0⟩]⟩, ⟨"b", [⟨2, 3, "u", 0⟩]⟩]
      [⟨"a", "DONE", [some 1]⟩, ⟨"b", "DONE", [some 2]⟩]
      [⟨"b", "DONE", [some 2]⟩, ⟨"a", "DONE", [some 1]⟩]
      (by decide) (by decide)⟩

/-- C4: resolving asynchronously stored batch results over the retrieved
jobs (in any order) yields exactly the data the synchronous path produces by
resolving the same `(job, keys)` batches directly — both paths reduce to
`_resolve_batches` on the same batches. -/
theorem resolve_results_equiv_sync (Hist : Type)
    (batches : List (BatchJob Hist)) (jobs : List (Job Hist))
    (_hsucc : ∀ b ∈ batches, ∀ o ∈ b.job.outcomes, o.isSome = true)
    (hnodup : ((batches.map (fun b => b.job)).map Job.jobId).Nodup)
    (hperm : jobs.Perm (batches.map (fun b => b.job))) :
    resolve_results (run_experiment_async_data batches) jobs
      = .ok (run_experiment_sync_data batches) := by
  have hjnodup : (jobs.map Job.jobId).Nodup := by
    have : (jobs.map Job.jobId).Perm
        ((batches.map (fun b => b.job)).map Job.jobId) := hperm.map _
    exact this.nodup_iff.mpr hnodup
  have hfind : ∀ b ∈ batches, jobsMapping jobs b.job.jobId = some b.job := by
    intro b hb
    apply jobsMapping_self jobs hjnodup
    rw [hperm.mem_iff]
    exact List.mem_map_of_mem _ hb
  unfold resolve_results
  rw [rebuildBatches_async jobs batches hfind]
  rfl

/-- Witness: async-produced data over retrieved jobs, reversed, resolves to
the synchronous result. -/
theorem resolve_results_equiv_sync_witness :
    ((∀ b ∈ ([⟨⟨"a", "DONE", [some 1]⟩, [⟨0, 1, "id", 0⟩]⟩,
          ⟨⟨"b", "DONE", [some 2]⟩, [⟨0, 1, "u", 0⟩]⟩] : List (BatchJob Nat)),
        ∀ o ∈ b.job.outcomes, o.isSome = true)
      ∧ ((([⟨⟨"a", "DONE", [some 1]⟩, [⟨0, 1, "id", 0⟩]⟩,
          ⟨⟨"b", "DONE", [some 2]⟩, [⟨0, 1, "u", 0⟩]⟩] :
            List (BatchJob Nat)).map (fun b => b.job)).map Job.jobId).Nodup
      ∧ ([⟨"b", "DONE", [some 2]⟩, ⟨"a", "DONE", [some 1]⟩] :
          List (Job Nat)).Perm
        (([⟨⟨"a", "DONE", [some 1]⟩, [⟨0, 1, "id", 0⟩]⟩,
          ⟨⟨"b", "DONE", [some 2]⟩, [⟨0, 1, "u", 0⟩]⟩] :
            List (BatchJob Nat)).map (fun b => b.job)))
    ∧ resolve_results
        (run_experiment_async_data
          ([⟨⟨"a", "DONE", [some 1]⟩, [⟨0, 1, "id", 0⟩]⟩,
            ⟨⟨"b", "DONE", [some 2]⟩, [⟨0, 1, "u", 0⟩]⟩] : List (BatchJob Nat)))
        [⟨"b", "DONE", [some 2]⟩, ⟨"a", "DONE", [some 1]⟩]
      = .ok (run_experiment_sync_data
          ([⟨⟨"a", "DONE", [some 1]⟩, [⟨0, 1, "id", 0⟩]⟩,
            ⟨⟨"b", "DONE", [some 2]⟩, [⟨0, 1, "u", 0⟩]⟩] : List (BatchJob Nat))) :=
  ⟨⟨by decide, by decide, by decide⟩,
    resolve_results_equiv_sync Nat
      [⟨⟨"a", "DONE", [some 1]⟩, [⟨0, 1, "id", 0⟩]⟩,
        ⟨⟨"b", "DONE", [some 2]⟩, [⟨0, 1, "u", 0⟩]⟩]
      [⟨"b", "DONE", [some 2]⟩, ⟨"a", "DONE", [some 1]⟩]
      (by decide) (by decide) (by decide)⟩

/-! ## Backend limits (`qbench/limits.py`) -/

/-- Model of `qbench.limits.Limits`: optional per-job caps on number of
circuits and shots; `none` means "no limit known/enforced". -/
structure Limits where
  max_circuits : Option Nat := none
  max_shots : Option Nat := none
  deriving DecidableEq, Repr

/-- The backend families `get_limits` dispatches on via `@singledispatch`:
the registered rules (`AWSBraketBackend`, `IBMQBackend`, `AerSimulator`,
`MockSimulator`) plus `generic` for any type with no registered rule, which
falls through to the base implementation.  Each constructor carries exactly
the data its rule reads. -/
inductive Backend where
  | generic
  | aws (name : String) (deviceSummary : String)
  | ibmq (maxShots : Nat) (maxExperiments : Nat)
  | aer (maxShots : Nat)
  | mock (maxShots : Nat)
  deriving DecidableEq, Repr

/-- Python's `str.lower()`, modelled characterwise (the code only compares
the result against ASCII literals). -/
def pyLower (s : String) : String := ⟨s.data.map Char.toLower⟩

/-- Python's `str.startswith(pat)`. -/
def pyStartsWith (s pat : String) : Bool := pat.data.isPrefixOf s.data

def containsSubAux : List Char → List Char → Bool
  | _, [] => true
  | [], _ => false
  | c :: rest, pat => pat.isPrefixOf (c :: rest) || containsSubAux rest pat

/-- Python's `pat in s` substring test. -/
def strContainsSub (s pat : String) : Bool := containsSubAux s.data pat.data

/-- Model of `qbench.limits.get_limits` with its registered rules.  The
`NotImplementedError` raised for an unrecognized AWS device is modelled as
an error value; `_aws_device_summary(backend)` is the `deviceSummary`
carried by the `aws` constructor. -/
def get_limits : Backend → Except String Limits
  | .generic => .ok {}
  | .aws name summary =>
    if pyLower name = "lucy" then .ok { max_shots := some 10000 }
    else if pyStartsWith (pyLower name) "aspen" then .ok { max_shots := some 100000 }
    else if strContainsSub summary "simulator" then .ok { max_shots := some 100000 }
    else .error ("Don't know how to obtain limits for device " ++ name)
  | .ibmq maxShots maxExperiments =>
    .ok { max_circuits := some maxExperiments, max_shots := some maxShots }
  | .aer maxShots => .ok { max_shots := some maxShots }
  | .mock maxShots => .ok { max_circuits := some 2, max_shots := some maxShots }

/-- C7: `get_limits` returns the unconstrained default `(None, None)` for a
backend type with no registered rule, and raises (instead of defaulting)
for an AWS Braket device that is neither Lucy, nor an Aspen machine, nor a
simulator. -/
theorem get_limits_default_and_unknown_aws (name summary : String)
    (h1 : pyLower name ≠ "lucy")
    (h2 : pyStartsWith (pyLower name) "aspen" = false)
    (h3 : strContainsSub summary "simulator" = false) :
    get_limits .generic = .ok ⟨none, none⟩
    ∧ get_limits (.aws name summary)
      = .error ("Don't know how to obtain limits for device " ++ name) := by
  refine ⟨rfl, ?_⟩
  simp only [get_limits]
  rw [if_neg h1, if_neg (by simp [h2]), if_neg (by simp [h3])]

/-- Witness: a hypothetical AWS device that matches no rule. -/
theorem get_limits_default_and_unknown_aws_witness :
    (pyLower "Ankaa-2" ≠ "lucy"
      ∧ pyStartsWith (pyLower "Ankaa-2") "aspen" = false
      ∧ strContainsSub "A superconducting quantum processor" "simulator" = false)
    ∧ (get_limits .generic = .ok ⟨none, none⟩
      ∧ get_limits (.aws "Ankaa-2" "A superconducting quantum processor")
        = .error ("Don't know how to obtain limits for device " ++ "Ankaa-2")) :=
  ⟨⟨by decide, by decide, by decide⟩,
    get_limits_default_and_unknown_aws "Ankaa-2"
      "A superconducting quantum processor" (by decide) (by decide) (by decide)⟩

/-! ## Mode mismatch (`qbench/fourier/_experiment_runner.py`)

`FourierDiscriminationResult.results` mixes async entries (`BatchResult`)
with sync entries (resolved histogram records); `fetch_statuses` and
`resolve_results` guard with `_verify_results_are_async_or_fail`, which
logs an error and calls `exit(1)` when any entry is synchronous.  The
process exit is modelled as an error value. -/

/-- An entry of a stored result file: either an async `{job_id, keys}`
record or an already-resolved synchronous record with histograms. -/
inductive ResultEntry (Hist : Type) where
  | batch (b : BatchResult)
  | single (s : SingleResult Hist)
  deriving DecidableEq, Repr

/-- `isinstance(entry, BatchResult)` from the guard's `all(...)`. -/
def isBatchEntry : ResultEntry Hist → Bool
  | .batch _ => true
  | .single _ => false

/-- Model of `_verify_results_are_async_or_fail`. -/
def _verify_results_are_async_or_fail (entries : List (ResultEntry Hist)) :
    Except String Unit :=
  if entries.all isBatchEntry then .ok ()
  else .error "Specified file seems to contain results from synchronous experiment"

/-- One `Counter` update: Python's `Counter` keeps first-occurrence order
and increments existing keys in place. -/
def counterInsert (acc : List (String × Nat)) (s : String) :
    List (String × Nat) :=
  match acc with
  | [] => [(s, 1)]
  | (k, n) :: rest =>
    if k = s then (k, n + 1) :: rest else (k, n) :: counterInsert rest s

/-- Model of `Counter(job.status().name for job in jobs)`. -/
def statusCounter (statuses : List String) : List (String × Nat) :=
  statuses.foldl counterInsert []

/-- Model of `fetch_statuses`: check the artifact is asynchronous (or fail),
then tally the statuses of the retrieved jobs.  The retrieved jobs stand in
for `retrieve_jobs(backend, job_ids)`. -/
def fetch_statuses (entries : List (ResultEntry Hist))
    (jobs : List (Job Hist)) : Except String (List (String × Nat)) :=
  match _verify_results_are_async_or_fail entries with
  | .ok _ => .ok (statusCounter (jobs.map Job.status))
  | .error msg => .error msg

/-- C8: invoking status polling on an artifact containing a synchronously
produced (histogram-bearing) entry fails fast and visibly — the guard
rejects the file and `fetch_statuses` returns that failure for every
possible set of retrieved jobs, never an empty or default answer. -/
theorem fetch_statuses_rejects_sync_artifact (Hist : Type)
    (entries : List (ResultEntry Hist)) (s : SingleResult Hist)
    (hmem : ResultEntry.single s ∈ entries) :
    _verify_results_are_async_or_fail entries
      = .error "Specified file seems to contain results from synchronous experiment"
    ∧ ∀ jobs, fetch_statuses entries jobs
      = .error "Specified file seems to contain results from synchronous experiment" := by
  have hall : entries.all isBatchEntry = false := by
    rcases hcase : entries.all isBatchEntry with _ | _
    · rfl
    · have := List.all_eq_true.mp hcase (ResultEntry.single s) hmem
      simp [isBatchEntry] at this
  have hver : _verify_results_are_async_or_fail entries
      = .error "Specified file seems to contain results from synchronous experiment" := by
    unfold _verify_results_are_async_or_fail
    rw [if_neg (by simp [hall])]
  refine ⟨hver, fun jobs => ?_⟩
  unfold fetch_statuses
  rw [hver]

/-- Witness: a one-entry artifact holding a resolved synchronous record. -/
theorem fetch_statuses_rejects_sync_artifact_witness :
    (ResultEntry.single (⟨0, 1, 0, []⟩ : SingleResult Nat)
        ∈ [ResultEntry.single (⟨0, 1, 0, []⟩ : SingleResult Nat)])
    ∧ (_verify_results_are_async_or_fail
          [ResultEntry.single (⟨0, 1, 0, []⟩ : SingleResult Nat)]
        = .error "Specified file seems to contain results from synchronous experiment"
      ∧ ∀ jobs, fetch_statuses
          [ResultEntry.single (⟨0, 1, 0, []⟩ : SingleResult Nat)] jobs
        = .error "Specified file seems to contain results from synchronous experiment") :=
  ⟨by decide,
    fetch_statuses_rejects_sync_artifact Nat
      [ResultEntry.single ⟨0, 1, 0, []⟩] ⟨0, 1, 0, []⟩ (by decide)⟩

/-! ## Tabulation (`tabulate_results` and the scheme probability formulas)

Histograms of two-qubit bitstrings (`SynchronousHistogram`) are association
lists from bitstring to count with distinct keys, as Python dicts.  Counts
come from Qiskit in "q1 q0" order: the first character of a key is qubit 1,
the last is qubit 0.  Python's float arithmetic is modelled with exact
rationals; `float` division by zero (impossible for the strictly positive
counts of `SynchronousHistogram`) is the total rational division.  The
mitigated second column of `_make_row` (guarded by `except AttributeError`)
concerns only the unmodelled mitigation fields and is omitted, as is the
mitigation info throughout this file. -/

abbrev Histogram := List (String × Nat)

/-- Python's `counts.get(s, 0)`. -/
def histGet (h : Histogram) (s : String) : Nat :=
  ((h.find? (fun p => p.1 == s)).map Prod.snd).getD 0

/-- `marginal_counts(counts, [1]).get(c, 0)`: total count of outcomes whose
qubit-1 bit (first character) is `c`. -/
def margQubit1 (h : Histogram) (c : Char) : Nat :=
  ((h.filter (fun p => p.1.front == c)).map Prod.snd).sum

/-- `marginal_counts(counts, [0]).get(c, 0)`: total count of outcomes whose
qubit-0 bit (last character) is `c`. -/
def margQubit0 (h : Histogram) (c : Char) : Nat :=
  ((h.filter (fun p => p.1.back == c)).map Prod.snd).sum

/-- Model of
`qbench.schemes.direct_sum.compute_probabilities_from_direct_sum_measurements`. -/
def compute_probabilities_from_direct_sum_measurements
    (id_counts u_counts : Histogram) : ℚ :=
  let num_shots_per_measurement : ℚ := ((id_counts.map Prod.snd).sum : ℚ)
  ((margQubit1 id_counts '1' : ℚ) + (margQubit1 u_counts '0' : ℚ))
    / (2 * num_shots_per_measurement)

/-- Model of
`qbench.schemes.postselection.compute_probabilities_from_postselection_measurements`. -/
def compute_probabilities_from_postselection_measurements
    (id_v0_counts id_v1_counts u_v0_counts u_v1_counts : Histogram) : ℚ :=
  ((histGet u_v0_counts "00" : ℚ) / (margQubit0 u_v0_counts '0' : ℚ)
    + (histGet u_v1_counts "01" : ℚ) / (margQubit0 u_v1_counts '1' : ℚ)
    + (histGet id_v0_counts "10" : ℚ) / (margQubit0 id_v0_counts '0' : ℚ)
    + (histGet id_v1_counts "11" : ℚ) / (margQubit0 id_v1_counts '1' : ℚ)) / 4

/-- The two probability-estimation methods of a Fourier experiment set
(`method: Literal["direct_sum", "postselection"]`). -/
inductive Method where
  | direct_sum
  | postselection
  deriving DecidableEq, Repr

/-- The keyword parameters of the probability function selected by
`tabulate_results`. -/
def requiredKwargs : Method → List String
  | .direct_sum => ["id_counts", "u_counts"]
  | .postselection =>
    ["id_v0_counts", "id_v1_counts", "u_v0_counts", "u_v1_counts"]

/-- One insertion into a Python dict under construction: an existing key is
overwritten in place, a new key appended. -/
def pyDictInsert (acc : List (String × Histogram)) (p : String × Histogram) :
    List (String × Histogram) :=
  match acc with
  | [] => [p]
  | (k, v) :: rest =>
    if k = p.1 then (k, p.2) :: rest else (k, v) :: pyDictInsert rest p

/-- The dict comprehension
`{f"{info.name}_counts": info.histogram for info in ...}`. -/
def pyDict (l : List (String × Histogram)) : List (String × Histogram) :=
  l.foldl pyDictInsert []

def kwargsLookup (kwargs : List (String × Histogram)) (s : String) :
    Option Histogram :=
  (kwargs.find? (fun p => p.1 == s)).map Prod.snd

/-- Python keyword-argument binding for `f(**kwargs)`: the call raises
`TypeError` unless the kwargs keys are exactly the required parameters;
on success the histograms are returned in parameter order. -/
def bindKwargs (required : List String) (kwargs : List (String × Histogram)) :
    Except String (List Histogram) :=
  if required.all (fun r => (kwargsLookup kwargs r).isSome)
      && kwargs.all (fun p => required.contains p.1) then
    .ok (required.map (fun r => (kwargsLookup kwargs r).getD []))
  else
    .error "TypeError: compute_probabilities() missing or unexpected keyword arguments"

/-- `compute_probabilities(**kwargs)` for the method's formula. -/
def callProbabilityFn (m : Method) (kwargs : List (String × Histogram)) :
    Except String ℚ :=
  match bindKwargs (requiredKwargs m) kwargs with
  | .error msg => .error msg
  | .ok hs =>
    match m with
    | .direct_sum =>
      .ok (compute_probabilities_from_direct_sum_measurements
        (hs.getD 0 []) (hs.getD 1 []))
    | .postselection =>
      .ok (compute_probabilities_from_postselection_measurements
        (hs.getD 0 []) (hs.getD 1 []) (hs.getD 2 []) (hs.getD 3 []))

/-- A row of the tabulated data frame (without the optional mitigated
column, see the section comment). -/
structure Row where
  target : Nat
  ancilla : Nat
  phi : ℚ
  disc_prob : ℚ
  deriving DecidableEq, Repr

/-- Model of `_make_row`: `[entry.target, entry.ancilla, entry.phi,
compute_probabilities(**{f"{info.name}_counts": info.histogram ...})]`. -/
def _make_row (m : Method) (entry : SingleResult Histogram) :
    Except String Row :=
  match callProbabilityFn m
      (pyDict (entry.results_per_circuit.map
        (fun info => (info.name ++ "_counts", info.histogram)))) with
  | .ok p => .ok ⟨entry.target, entry.ancilla, entry.phi, p⟩
  | .error msg => .error msg

/-- The list comprehension `[_make_row(entry) for entry in sync_results.data]`:
the first raising entry aborts the whole tabulation. -/
def makeRows (m : Method) : List (SingleResult Histogram) →
    Except String (List Row)
  | [] => .ok []
  | e :: rest =>
    match _make_row m e with
    | .error msg => .error msg
    | .ok r =>
      match makeRows m rest with
      | .ok rs => .ok (r :: rs)
      | .error msg => .error msg

/-- Model of `tabulate_results`: build all rows, then read `rows[0]` to pick
the column set — which raises `IndexError` on empty data. -/
def tabulate_results (m : Method) (data : List (SingleResult Histogram)) :
    Except String (List Row) :=
  match makeRows m data with
  | .error msg => .error msg
  | .ok [] => .error "IndexError: list index out of range"
  | .ok rows => .ok rows

/-- Counterexample to "tabulation never raises for an entry with empty
`results_per_circuit`": on a single entry with zero resolved results the
probability function is called with no keyword arguments and the call
raises, so `tabulate_results` fails instead of omitting or flagging the
row. -/
theorem tabulate_results_empty_entry_counterexample :
    tabulate_results Method.direct_sum [⟨0, 1, 0, []⟩]
      = .error "TypeError: compute_probabilities() missing or unexpected keyword arguments" :=
  rfl

theorem make_row_empty_entry (m : Method) (e : SingleResult Histogram)
    (hempty : e.results_per_circuit = []) :
    _make_row m e
      = .error "TypeError: compute_probabilities() missing or unexpected keyword arguments" := by
  simp only [_make_row, hempty, List.map_nil]
  cases m <;> rfl

theorem makeRows_error_of_mem (m : Method) :
    ∀ (data : List (SingleResult Histogram)) (e : SingleResult Histogram),
      e ∈ data → (∃ msg, _make_row m e = .error msg) →
        ∃ msg, makeRows m data = .error msg := by
  intro data
  induction data with
  | nil => intro e he; cases he
  | cons e' rest ih =>
    intro e he ⟨msg, herr⟩
    rcases List.mem_cons.mp he with rfl | hrest
    · exact ⟨msg, by simp only [makeRows, herr]⟩
    · rcases hh : _make_row m e' with msg' | r
      · exact ⟨msg', by simp only [makeRows, hh]⟩
      · obtain ⟨msg'', hrec⟩ := ih e hrest ⟨msg, herr⟩
        exact ⟨msg'', by simp only [makeRows, hh, hrec]⟩

/-- C6 (amended): `tabulate_results` fails on any data containing an entry
whose `results_per_circuit` is empty — the probability-function call raises
`TypeError` on the missing histogram keyword arguments — rather than
omitting or flagging that row. -/
theorem tabulate_results_raises_on_empty_entry (m : Method)
    (data : List (SingleResult Histogram)) (e : SingleResult Histogram)
    (he : e ∈ data) (hempty : e.results_per_circuit = []) :
    ∃ msg, tabulate_results m data = .error msg := by
  obtain ⟨msg, hrows⟩ := makeRows_error_of_mem m data e he
    ⟨_, make_row_empty_entry m e hempty⟩
  exact ⟨msg, by simp only [tabulate_results, hrows]⟩

/-- Witness: the one-entry data set with zero resolved results. -/
theorem tabulate_results_raises_on_empty_entry_witness :
    ((⟨0, 1, 0, []⟩ : SingleResult Histogram) ∈
        ([⟨0, 1, 0, []⟩] : List (SingleResult Histogram))
      ∧ (⟨0, 1, 0, []⟩ : SingleResult Histogram).results_per_circuit = [])
    ∧ ∃ msg, tabulate_results Method.direct_sum
        ([⟨0, 1, 0, []⟩] : List (SingleResult Histogram)) = .error msg :=
  ⟨⟨List.mem_singleton.mpr rfl, rfl⟩,
    tabulate_results_raises_on_empty_entry Method.direct_sum
      [⟨0, 1, 0, []⟩] ⟨0, 1, 0, []⟩ (List.mem_singleton.mpr rfl) rfl⟩

end QBench
